import Mathlib

/-!
Verification development for the WO2 oral-history matching pipeline
(`wo2_oralhistory_matching`): a shallow embedding in Lean 4 of the
concept-matching engine — the token-budget batchers, the response cleaner and
response interpretation, the retrying oracle client, the three match-source
strategies, and the hierarchical top-down matcher — together with theorems
about them.

External collaborators (the tiktoken encoder, the prompt-template builders,
the JSON parser of the standard library, and the classification oracle
itself) are passed in as explicit function parameters; everything else is
translated from the Python source, function by function.
-/

namespace WO2

/-- Scores are Python floats in the source; we model them as rationals. -/
abbrev Score := ℚ

/-- Model of `ThesaurusConcept` from `models.py` (file absent from the snapshot; fields
as in spec §3 and as used by `matching.py` / `thesaurus.py` / `serialize.py`).
`narrower` holds URIs of directly narrower concepts. -/
structure ThesaurusConcept where
  uri : String
  name : String
  category : String := ""
  alternate_names : List String := []
  description : Option String := none
  is_top_concept : Bool := false
  narrower : List String := []
deriving DecidableEq, Inhabited

/-- Model of `Segment` from `models.py`: a span of transcript text with timestamps
(`end` is a Lean keyword, hence `end_`). The `captions` payload is irrelevant
to the matching engine and omitted. -/
structure Segment where
  start : ℚ := 0
  end_ : ℚ := 0
  text : String
deriving DecidableEq, Inhabited

/-- Model of `MatchedConcept` from `models.py`: a candidate match produced by one of
the strategies (fields as used throughout `matching.py` and
`serialize.py`). -/
structure MatchedConcept where
  concept : ThesaurusConcept
  source : String
  score : Option Score
deriving DecidableEq, Inhabited

/-! ## Python string primitives

The source manipulates Python `str` values with `strip`, `startswith`,
`endswith`, slicing, `split`, `replace` and `lower`. These are modelled
executably over the character list of the string (Lean's own `String.trim`
and friends are defined by well-founded recursion over byte positions and do
not evaluate inside the kernel). -/

/-- Python `str.strip()`: remove leading and trailing whitespace. -/
def pyStrip (s : String) : String :=
  String.mk (((s.toList.dropWhile Char.isWhitespace).reverse.dropWhile
    Char.isWhitespace).reverse)

/-- Python `str.startswith(pre)`. -/
def pyStartsWith (s pre : String) : Bool :=
  decide (s.toList.take pre.toList.length = pre.toList)

/-- Python `str.endswith(suf)`. -/
def pyEndsWith (s suf : String) : Bool :=
  decide (s.toList.reverse.take suf.toList.length = suf.toList.reverse)

/-- Python slicing `s[n:]` (by characters). -/
def pyDrop (s : String) (n : Nat) : String := String.mk (s.toList.drop n)

/-- Python slicing `s[:-n]` for `n ≥ 1` (by characters). -/
def pyDropRight (s : String) (n : Nat) : String :=
  String.mk (s.toList.take (s.toList.length - n))

/-- Scanner for Python `str.split(sep)` with a non-empty separator, with
explicit fuel (one unit per examined character; `s.length + 1` always
suffices). `acc` holds the current piece reversed. -/
def pySplitAux (sep : List Char) : Nat → List Char → List Char → List (List Char)
  | 0, rest, acc => [acc.reverse ++ rest]
  | _ + 1, [], acc => [acc.reverse]
  | fuel + 1, c :: rest, acc =>
    if (c :: rest).take sep.length = sep then
      acc.reverse :: pySplitAux sep fuel ((c :: rest).drop sep.length) []
    else
      pySplitAux sep fuel rest (c :: acc)

/-- Python `str.split(sep)` for a non-empty separator. -/
def pySplit (s sep : String) : List String :=
  (pySplitAux sep.toList (s.toList.length + 1) s.toList []).map String.mk

/-- Scanner for Python `str.replace(old, new)` with a non-empty `old`,
replacing non-overlapping occurrences left to right, with explicit fuel. -/
def pyReplaceAux (old new : List Char) : Nat → List Char → List Char
  | 0, rest => rest
  | _ + 1, [] => []
  | fuel + 1, c :: rest =>
    if (c :: rest).take old.length = old then
      new ++ pyReplaceAux old new fuel ((c :: rest).drop old.length)
    else
      c :: pyReplaceAux old new fuel rest

/-- Python `str.replace(old, new)` for a non-empty `old`. -/
def pyReplace (s old new : String) : String :=
  String.mk (pyReplaceAux old.toList new.toList (s.toList.length + 1) s.toList)

/-- Python `str.lower()` (character-wise). -/
def pyLower (s : String) : String := String.mk (s.toList.map Char.toLower)

/-! ## `matching.py`: `deduplicate_matches` (lines 170-177) -/

/-- Inner loop of `deduplicate_matches`: walk the list keeping a `seen_uris`
set (modelled as a list used only for membership) and the accumulated
deduplicated output (accumulated in order, as the Python list `deduped`). -/
def deduplicateGo (seen : List String) : List MatchedConcept → List MatchedConcept
  | [] => []
  | m :: rest =>
    if m.concept.uri ∈ seen then deduplicateGo seen rest
    else m :: deduplicateGo (m.concept.uri :: seen) rest

/-- Embedding of `deduplicate_matches` from `matching.py`: keep a match only if its
concept's `uri` has not been seen before. -/
def deduplicate_matches (ms : List MatchedConcept) : List MatchedConcept :=
  deduplicateGo [] ms

/-- Specification-level restatement of deduplication (spec §4.5: "keep the
first occurrence of each distinct concept `uri` and drop subsequent
duplicates, preserving input order of first occurrences"), written
independently of the source: keep the head, then recurse on the tail with
every later occurrence of the head's uri removed. -/
def keepFirstByUri : List MatchedConcept → List MatchedConcept
  | [] => []
  | m :: rest =>
    m :: keepFirstByUri (rest.filter (fun x => decide ¬ (x.concept.uri = m.concept.uri)))
termination_by l => l.length
decreasing_by
  exact Nat.lt_succ_of_le (List.length_filter_le _ _)

/-! ## `matching.py`: `match_segment_to_thesaurus_based_on_exact_occurrence`
(lines 228-246) -/

/-- A word character in the sense of the regex `\b` boundaries used by the
exact-occurrence matcher (`[A-Za-z0-9_]`; we restrict to the ASCII core of
Python's unicode-aware `\w`). -/
def isWordChar (c : Char) : Bool := c.isAlphanum || c == '_'

/-- Whether position `q` of `cs` holds a word character (out-of-range
positions count as non-word, as on the edges of a Python string). -/
def wordAt (cs : List Char) (q : Nat) : Bool :=
  match cs.get? q with
  | some c => isWordChar c
  | none => false

/-- Whether the regex boundary `\b` matches between positions `p - 1` and `p`
of `cs`: exactly one of the two neighbouring positions holds a word
character. -/
def boundaryAt (cs : List Char) (p : Nat) : Bool :=
  (match p with
   | 0 => false
   | q + 1 => wordAt cs q) != wordAt cs p

/-- Whether the pattern `\b <name> \b` (the escaped concept name between word
boundaries, as built on line 237 of `matching.py`) matches `cs` at position
`p`. -/
def wordMatchAt (cs pat : List Char) (p : Nat) : Bool :=
  decide ((cs.drop p).take pat.length = pat) &&
    boundaryAt cs p && boundaryAt cs (p + pat.length)

/-- Model of `re.search` of the whole-word pattern: some position of the lowered text
matches the lowered concept name between word boundaries. -/
def wordOccurs (name text : String) : Bool :=
  let cs := text.toList
  let pat := (pyLower name).toList
  (List.range (cs.length + 1)).any (fun p => wordMatchAt cs pat p)

/-- Embedding of `match_segment_to_thesaurus_based_on_exact_occurrence` from
`matching.py`: one candidate per concept whose (lowercased) name occurs as a
whole word in the lowercased segment text, with source `'Exact occurrence'`
and score `1.0`. -/
def match_segment_to_thesaurus_based_on_exact_occurrence
    (segment : Segment) (concepts : List ThesaurusConcept) : List MatchedConcept :=
  let text := pyLower segment.text
  concepts.filterMap (fun concept =>
    if wordOccurs concept.name text then
      some { concept := concept, source := "Exact occurrence", score := some 1 }
    else none)

/-! ## `batching.py`: `_batch_segments_by_tokens` (lines 35-62) and
`_batch_concept_labels_by_tokens` (lines 64-93)

The tiktoken encoder is external; it enters as a parameter
`enc : String → Nat` standing for `len(encoding.encode(text))`. The prompt
builders from `prompts.py` are likewise external (spec §1 puts prompt-string
construction out of scope); only the encoded length of the prompt built on an
empty item list matters, so they enter as the strings they build. -/

/-- Per-segment cost on line 49-50 of `batching.py`: the encoded length of
the newline-normalised, stripped text plus a fixed margin of 10. -/
def segCost (enc : String → Nat) (s : Segment) : Nat :=
  enc (pyStrip (pyReplace s.text "\n" " ")) + 10

/-- The `for segment in segments` loop of `_batch_segments_by_tokens`:
`cur`/`tok` are `current_batch`/`current_tokens`, `dpt` is
`dummy_prompt_tokens`, `mt` is `max_tokens`. When adding the next segment
would exceed the budget and the current batch is non-empty, the current batch
is closed; the segment is then appended to the (possibly fresh) current
batch either way. -/
def segBatchGo (enc : String → Nat) (dpt mt : Nat) :
    List Segment → List Segment → Nat → List (List Segment)
  | [], cur, _ => if cur.isEmpty then [] else [cur]
  | s :: rest, cur, tok =>
    let tc := segCost enc s
    if mt < tok + tc + dpt ∧ ¬ cur.isEmpty then
      cur :: segBatchGo enc dpt mt rest [s] tc
    else
      segBatchGo enc dpt mt rest (cur ++ [s]) (tok + tc)

/-- Embedding of `_batch_segments_by_tokens` from `batching.py`. `selectorPrompt` is
`_build_segment_selector_prompt([])`. -/
def _batch_segments_by_tokens (enc : String → Nat) (selectorPrompt : String)
    (segments : List Segment) (max_tokens : Nat) : List (List Segment) :=
  segBatchGo enc (enc selectorPrompt) max_tokens segments [] 0

/-- Per-label cost on line 80 of `batching.py`: encoded length of the label
plus a fixed margin of 5. -/
def labelCost (enc : String → Nat) (label : String) : Nat := enc label + 5

/-- The `for label in labels` loop of `_batch_concept_labels_by_tokens`,
against the pre-reduced budget `available`. -/
def labelBatchGo (enc : String → Nat) (available : Nat) :
    List String → List String → Nat → List (List String)
  | [], cur, _ => if cur.isEmpty then [] else [cur]
  | l :: rest, cur, tok =>
    let c := labelCost enc l
    if available < tok + c ∧ ¬ cur.isEmpty then
      cur :: labelBatchGo enc available rest [l] c
    else
      labelBatchGo enc available rest (cur ++ [l]) (tok + c)

/-- Embedding of `_batch_concept_labels_by_tokens` from `batching.py`. `buildPrompt` is
`_build_topdown_matching_prompt` (external); the dummy prompt is built on the
empty label list and the segment text, and the available budget is
`max(0, max_tokens - dummy_prompt_tokens)` — which is exactly truncated
natural subtraction. -/
def _batch_concept_labels_by_tokens (enc : String → Nat)
    (buildPrompt : List String → String → String) (labels : List String)
    (segment_text : String) (max_tokens : Nat) : List (List String) :=
  let dpt := enc (buildPrompt [] segment_text)
  labelBatchGo enc (max_tokens - dpt) labels [] 0

/-! ## `response_cleaner.py`: `_clean_json_output` (lines 1-14) -/

/-- Embedding of `_clean_json_output` from `response_cleaner.py`. Python's
`response_text.split('</think>')[1]` raises `IndexError` when there is no
`'</think>'` in the text (the split yields a single part); the partiality is
made explicit with `Option`, `none` standing for that uncaught exception. -/
def _clean_json_output (response_text : String) : Option String :=
  (if pyStartsWith (pyStrip response_text) "```json" then
      some (pyDrop (pyStrip response_text) 7)
    else if pyStartsWith (pyStrip response_text) "```" then
      some (pyDrop (pyStrip response_text) 3)
    else if pyStartsWith (pyStrip response_text) "<think>" then
      match pySplit (pyStrip response_text) "</think>" with
      | _ :: second :: _ => some second
      | _ => none
    else some (pyStrip response_text)).map
    (fun u => pyStrip (if pyEndsWith u "```" then pyDropRight u 3 else u))

/-! ## `matching.py`: response interpretation (lines 52-101)

`json.loads` is the Python standard library; it enters as a parameter
`parse : String → Option Json` over the JSON value type below (`none`
standing for `json.JSONDecodeError`). -/

/-- JSON values as produced by `json.loads` (numbers as rationals). -/
inductive Json where
  | null
  | bool (b : Bool)
  | num (q : ℚ)
  | str (s : String)
  | arr (items : List Json)
  | obj (kvs : List (String × Json))
deriving Inhabited

/-- Dictionary lookup on a decoded JSON object: for duplicate keys
`json.loads` keeps the last value, so look up the last binding. -/
def jsonObjGet (kvs : List (String × Json)) (key : String) : Option Json :=
  (kvs.reverse.find? (fun p => p.1 == key)).map (fun p => p.2)

/-- Models Python `float(x)` restricted to the value shapes that can appear
as a decoded JSON `score`: numbers convert to themselves, booleans to 0/1,
simple unsigned decimal-literal strings to their value; everything else is
`none`, standing for the `TypeError`/`ValueError` that the source catches and
turns into `None`. (Signed/exponent string forms also convert in Python; the
claims never depend on the converted value, only on conversion never
escaping, so they are conservatively sent to `none` here.) -/
def pyFloat? (j : Json) : Option Score :=
  match j with
  | .num q => some q
  | .bool b => some (if b then 1 else 0)
  | .str s =>
    let parts := s.toList.splitOn '.'
    match parts with
    | [intPart] =>
      if intPart ≠ [] ∧ intPart.all Char.isDigit then
        some (intPart.foldl (fun a c => a * 10 + (c.toNat - 48)) 0 : Nat)
      else none
    | [intPart, fracPart] =>
      if (intPart ≠ [] ∨ fracPart ≠ []) ∧ intPart.all Char.isDigit ∧
          fracPart.all Char.isDigit then
        some ((intPart.foldl (fun a c => a * 10 + (c.toNat - 48)) 0 : Nat) +
          (fracPart.foldl (fun a c => a * 10 + (c.toNat - 48)) 0 : Nat) /
            ((10 : ℚ) ^ fracPart.length))
      else none
    | _ => none
  | _ => none

/-- One step of `_extract_selected_names` (lines 52-69 of `matching.py`),
rendered as an association list in iteration order (the Python dict is only
ever used for emptiness, membership and lookup, with last-assignment-wins
semantics captured by `lookupLast` below). `Except` makes the uncaught
`AttributeError` explicit: an object item whose `"concept"` value is not a
string has `.strip()` called on a non-string. -/
def _extract_selected_names : List Json → Except String (List (String × Option Score))
  | [] => .ok []
  | item :: rest =>
    match item with
    | .obj kvs =>
      match jsonObjGet kvs "concept" with
      | some (.str name) =>
        let scoreVal : Option Score :=
          match jsonObjGet kvs "score" with
          | none => none
          | some .null => none
          | some sj => pyFloat? sj
        match _extract_selected_names rest with
        | .ok tail => .ok ((pyStrip name, scoreVal) :: tail)
        | .error e => .error e
      | some _ => .error "AttributeError"
      | none => _extract_selected_names rest
    | .str s =>
      match _extract_selected_names rest with
      | .ok tail => .ok ((pyStrip s, none) :: tail)
      | .error e => .error e
    | _ => _extract_selected_names rest

/-- Lookup with Python-dict semantics on the association list produced by
`_extract_selected_names` (or supplied directly by an abstract oracle): the
last binding of a key wins. -/
def lookupLast (sel : List (String × Option Score)) (key : String) :
    Option (Option Score) :=
  (sel.reverse.find? (fun p => p.1 == key)).map (fun p => p.2)

/-- Lines 88-101 of `matching.py`: resolve the selected names back to
concepts by exact (stripped) name match, in concept-list order, tagging each
with source `'Top-down matching'` and the oracle-supplied score. -/
def resolveSelected (sel : List (String × Option Score))
    (concepts : List ThesaurusConcept) : List MatchedConcept :=
  if sel.isEmpty then []
  else concepts.filterMap (fun c =>
    (lookupLast sel (pyStrip c.name)).map (fun sc =>
      { concept := c, source := "Top-down matching", score := sc }))

/-- Embedding of `_get_matched_concepts_from_response` from `matching.py` (lines 71-101):
clean the raw response, parse it, require a JSON list, extract the selected
names, and resolve them against the candidate concepts. A failed parse or a
non-list parse yields `.ok []` (logged and swallowed in the source); the
`IndexError` of the cleaner and the `AttributeError` of the extractor are
uncaught and surface as `.error`. -/
def _get_matched_concepts_from_response (parse : String → Option Json)
    (response : String) (concepts : List ThesaurusConcept) :
    Except String (List MatchedConcept) :=
  match _clean_json_output response with
  | none => .error "IndexError"
  | some clean =>
    match parse clean with
    | none => .ok []
    | some (.arr items) =>
      match _extract_selected_names items with
      | .error e => .error e
      | .ok sel => .ok (resolveSelected sel concepts)
    | some _ => .ok []

/-! ## `openai_client.py`: `_safe_chat_call` (lines 25-48)

The underlying `_chat` call is a network operation; its possible outcomes at
each attempt enter as a sequence `outcomes : Nat → ChatOutcome` indexed by
the attempt number. -/

/-- Outcome of one underlying `_chat` call: a response string, an
`openai.RateLimitError` carrying its message, or any other
`openai.OpenAIError`. -/
inductive ChatOutcome where
  | ok (s : String)
  | rateLimited (msg : String)
  | apiError (msg : String)
deriving DecidableEq, Inhabited

/-- Result of `_safe_chat_call`: the returned response, a propagated
non-rate-limit oracle error, the uncaught `ValueError` from
`float(wait_match.group(1))`, or the final
`Exception("Too many attempts, even with time handling.")`. -/
inductive ChatResult where
  | success (s : String)
  | openAIError (msg : String)
  | valueError (s : String)
  | tooManyAttempts
deriving DecidableEq, Inhabited

/-- A character matched by the regex class `[\d\.]`. -/
def isDigitOrDot (c : Char) : Bool := c.isDigit || c == '.'

/-- Model of `re.search(r"try again in ([\d\.]+)s", msg)` at one position: the literal
`"try again in "`, then the maximal non-empty run of digits/dots, then `'s'`.
(The greedy `[\d\.]+` only ever matches the maximal run here: backtracking
would place a digit or dot where the `'s'` is required.) -/
def waitHintAt (cs : List Char) : Option String :=
  let lit := "try again in ".toList
  if cs.take lit.length = lit then
    let rest := cs.drop lit.length
    let run := rest.takeWhile isDigitOrDot
    if run ≠ [] ∧ ((rest.drop run.length).take 1 = ['s']) then
      some (String.mk run)
    else none
  else none

/-- Model of `re.search`: the leftmost position at which the pattern matches, if
any; returns the captured group. -/
def searchWaitHint : List Char → Option String
  | [] => none
  | c :: rest =>
    match waitHintAt (c :: rest) with
    | some g => some g
    | none => searchWaitHint rest

/-- Python `float(group)` on a string of digits and dots: defined exactly
when there is at most one dot and at least one digit; `none` stands for the
(uncaught) `ValueError`. -/
def floatOfDigitRun (s : String) : Option ℚ :=
  match s.toList.splitOn '.' with
  | [intPart] =>
    if intPart = [] then none
    else some (intPart.foldl (fun a c => a * 10 + (c.toNat - 48)) 0 : Nat)
  | [intPart, fracPart] =>
    if intPart = [] ∧ fracPart = [] then none
    else some ((intPart.foldl (fun a c => a * 10 + (c.toNat - 48)) 0 : Nat) +
      (fracPart.foldl (fun a c => a * 10 + (c.toNat - 48)) 0 : Nat) /
        ((10 : ℚ) ^ fracPart.length))
  | _ => none

/-- The wait-time computation in the `except openai.RateLimitError` branch
(lines 34-43): parse a hint and convert it with `float`, or fall back to 10
seconds when the regex finds nothing. `.error g` is the uncaught `ValueError`
raised by `float` on a matched but malformed group `g` (e.g. `"."`). -/
def rateLimitWait (msg : String) : Except String ℚ :=
  match searchWaitHint msg.toList with
  | some g =>
    match floatOfDigitRun g with
    | some w => .ok w
    | none => .error g
  | none => .ok 10

/-- The `while attempt < max_retries` loop of `_safe_chat_call`:
`attemptsLeft` is `max_retries - attempt`, `idx` the index of the next
underlying call, `waitAcc` the sleeps performed so far (most recent first).
Returns the result together with the chronological list of sleep
durations. -/
def safeChatGo (outcomes : Nat → ChatOutcome) :
    Nat → Nat → List ℚ → ChatResult × List ℚ
  | 0, _, waitAcc => (.tooManyAttempts, waitAcc.reverse)
  | n + 1, idx, waitAcc =>
    match outcomes idx with
    | .ok s => (.success s, waitAcc.reverse)
    | .apiError m => (.openAIError m, waitAcc.reverse)
    | .rateLimited m =>
      match rateLimitWait m with
      | .ok w => safeChatGo outcomes n (idx + 1) (w :: waitAcc)
      | .error g => (.valueError g, waitAcc.reverse)

/-- Embedding of `_safe_chat_call` from `openai_client.py`. -/
def _safe_chat_call (outcomes : Nat → ChatOutcome) (max_retries : Nat) :
    ChatResult × List ℚ :=
  safeChatGo outcomes max_retries 0 []

/-- An outcome that the retry loop absorbs and retries past: a rate-limit
error whose wait-time computation succeeds. -/
def retryOk (o : ChatOutcome) : Bool :=
  match o with
  | .rateLimited m =>
    match rateLimitWait m with
    | .ok _ => true
    | .error _ => false
  | _ => false

/-- The sleep duration performed for attempt `j` (meaningful when
`retryOk (outcomes j)`). -/
def waitOf (outcomes : Nat → ChatOutcome) (j : Nat) : ℚ :=
  match outcomes j with
  | .rateLimited m =>
    match rateLimitWait m with
    | .ok w => w
    | .error _ => 0
  | _ => 0

/-- Concrete outcome sequence for the retry-wrapper witness: one rate limit
advertising a 2-second wait, then a successful response. -/
def chatOutW : Nat → ChatOutcome :=
  fun j => if j = 0 then
    .rateLimited "Rate limit reached, please try again in 2s." else .ok "ok"

/-! ## `matching.py`: `match_segment_to_thesaurus_based_on_embeddings`
(lines 248-258)

`cosine_similarity` is declared an external one-line primitive by spec §1;
the similarity row it produces enters as the list `sims` (one rational per
concept, aligned with the concept list). `numpy.argsort` sorts ascending;
for the sub-16-element regimes exercised here its introsort degenerates to a
stable insertion sort, which we model with Mathlib's stable
`List.insertionSort` (in general numpy's default quicksort gives no tie
guarantee at all). -/

/-- Model of `similarities.argsort()`: indices of `sims` sorted by ascending
similarity (stable). -/
def argsortAsc (sims : List ℚ) : List Nat :=
  (List.range sims.length).insertionSort
    (fun i j => sims.getD i 0 ≤ sims.getD j 0)

/-- Embedding of `match_segment_to_thesaurus_based_on_embeddings` from `matching.py`:
`argsort`, Python slice `[-top_k:]` (which is the whole list when
`top_k = 0`, since `-0 == 0`), reverse, and build a candidate per selected
index with source `'Embedding similarities'` and the similarity as score. -/
def match_segment_to_thesaurus_based_on_embeddings (sims : List ℚ)
    (concepts : List ThesaurusConcept) (top_k : Nat) : List MatchedConcept :=
  ((if top_k = 0 then argsortAsc sims
    else (argsortAsc sims).drop ((argsortAsc sims).length - top_k)).reverse).map
    (fun i =>
      { concept := concepts.getD i default,
        source := "Embedding similarities",
        score := some (sims.getD i 0) })

/-! ## `matching.py`: `match_segment_topdown` (lines 179-226)

The classification oracle (`_chat` plus the response parsing chain) enters
as a sequence `oracle : Nat → List (String × Option Score)` giving, for the
`k`-th oracle call of the traversal, the already-parsed selected-names
mapping (`_extract_selected_names` of the decoded response) — every possible
sequence of oracle answers is a choice of this function. Resolution of the
answers against the candidate concepts (lines 91-101) is `resolveSelected`
above, applied — exactly as in `_safe_get_relevant_concepts`'s call on line
193/217 — to the full candidate list of the level, not to the single batch.

Each call of `match_segment_topdown` below also returns a trace: one entry
per hierarchy level (the root level first), recording the URIs labelled into
the level's oracle queries and the URIs matched at that level. The Python
loop is `while current_matches:`, whose termination is not structural; it is
rendered with explicit fuel, `none` standing for fuel exhaustion (the
termination theorems show concrete sufficient fuel). -/

/-- Embedding of `_generate_concept_labels` from `matching.py` (lines 19-28): label a
concept by `name – description` when the description is non-empty (Python
truthiness of `c.description`), else by the bare name. -/
def _generate_concept_labels (concepts : List ThesaurusConcept) : List String :=
  concepts.map (fun c =>
    match c.description with
    | some d => if d = "" then c.name else c.name ++ " – " ++ d
    | none => c.name)

/-- Embedding of `_find_narrower_concepts` from `matching.py` (lines 41-50): collect the
`narrower` URIs of the current concepts and keep the target concepts whose
URI is among them, in target order. -/
def _find_narrower_concepts (current target : List ThesaurusConcept) :
    List ThesaurusConcept :=
  let narrowerUris := (current.map (fun c => c.narrower)).flatten
  target.filter (fun c => narrowerUris.contains c.uri)

/-- The `for batch_labels in batched_labels` loops (lines 191-194 and
215-218): one oracle call per batch, each answer resolved against the full
candidate list of the level, results concatenated in batch order. Returns
the matches and the next oracle-call index. -/
def queryBatches (oracle : Nat → List (String × Option Score))
    (cands : List ThesaurusConcept) :
    List (List String) → Nat → List MatchedConcept × Nat
  | [], k => ([], k)
  | _batch :: rest, k =>
    (resolveSelected (oracle k) cands ++ (queryBatches oracle cands rest (k + 1)).1,
     (queryBatches oracle cands rest (k + 1)).2)

/-- Label, batch and query one hierarchy level of candidates. -/
def queryLevel (enc : String → Nat)
    (buildPrompt : List String → String → String)
    (oracle : Nat → List (String × Option Score)) (text : String)
    (max_tokens : Nat) (cands : List ThesaurusConcept) (k : Nat) :
    List MatchedConcept × Nat :=
  queryBatches oracle cands
    (_batch_concept_labels_by_tokens enc buildPrompt
      (_generate_concept_labels cands) text max_tokens) k

/-- A trace entry for one hierarchy level: the URIs put into that level's
oracle queries, and the URIs matched by the oracle at that level. -/
abbrev TraceEntry := List String × List String

/-- Lines 204-206 of `matching.py`: the concepts one narrower step below the
current frontier that have not been seen yet. -/
def newNarrowerOf (concepts : List ThesaurusConcept)
    (current : List MatchedConcept) (seen : List String) :
    List ThesaurusConcept :=
  (_find_narrower_concepts (current.map (fun m => m.concept)) concepts).filter
    (fun c => decide (c.uri ∉ seen))

/-- The Step-2 narrower-expansion loop of `match_segment_topdown` (lines
199-226): `current` is `current_matches`, `seen` is `seen_uris` (a set, used
only for membership and insertion), `acc` is `matches`. -/
def topdownLoop (enc : String → Nat)
    (buildPrompt : List String → String → String)
    (oracle : Nat → List (String × Option Score))
    (concepts : List ThesaurusConcept) (text : String) (max_tokens : Nat) :
    Nat → Nat → List MatchedConcept → List String → List MatchedConcept →
    Option (List MatchedConcept × List TraceEntry)
  | 0, _, _, _, _ => none
  | fuel + 1, k, current, seen, acc =>
    if current.isEmpty then some (acc, [])
    else if (newNarrowerOf concepts current seen).isEmpty then some (acc, [])
    else if (queryLevel enc buildPrompt oracle text max_tokens
        (newNarrowerOf concepts current seen) k).1.isEmpty then
      some (acc, [((newNarrowerOf concepts current seen).map (fun c => c.uri),
        ((queryLevel enc buildPrompt oracle text max_tokens
          (newNarrowerOf concepts current seen) k).1).map
            (fun m => m.concept.uri))])
    else
      match topdownLoop enc buildPrompt oracle concepts text max_tokens fuel
          (queryLevel enc buildPrompt oracle text max_tokens
            (newNarrowerOf concepts current seen) k).2
          (queryLevel enc buildPrompt oracle text max_tokens
            (newNarrowerOf concepts current seen) k).1
          (seen ++ ((queryLevel enc buildPrompt oracle text max_tokens
            (newNarrowerOf concepts current seen) k).1).map
              (fun m => m.concept.uri))
          (acc ++ (queryLevel enc buildPrompt oracle text max_tokens
            (newNarrowerOf concepts current seen) k).1) with
      | none => none
      | some (res, tr) =>
        some (res, ((newNarrowerOf concepts current seen).map (fun c => c.uri),
          ((queryLevel enc buildPrompt oracle text max_tokens
            (newNarrowerOf concepts current seen) k).1).map
              (fun m => m.concept.uri)) :: tr)

/-- Embedding of `match_segment_topdown` from `matching.py`: Step 1 evaluates the
top-level concepts (batched, one oracle call per batch, answers resolved
against the full top-concept list); an empty root result returns immediately
with no matches; otherwise the narrower-expansion loop runs with `seen`
seeded by the root matches and `matches` starting empty — root matches are
never appended to the accumulated result. -/
def match_segment_topdown (enc : String → Nat)
    (buildPrompt : List String → String → String)
    (oracle : Nat → List (String × Option Score)) (segment : Segment)
    (concepts top_concepts : List ThesaurusConcept) (max_tokens : Nat)
    (fuel : Nat) : Option (List MatchedConcept × List TraceEntry) :=
  if (queryLevel enc buildPrompt oracle segment.text max_tokens
      top_concepts 0).1.isEmpty then
    some ([], [(top_concepts.map (fun c => c.uri),
      ((queryLevel enc buildPrompt oracle segment.text max_tokens
        top_concepts 0).1).map (fun m => m.concept.uri))])
  else
    match topdownLoop enc buildPrompt oracle concepts segment.text max_tokens fuel
        (queryLevel enc buildPrompt oracle segment.text max_tokens
          top_concepts 0).2
        (queryLevel enc buildPrompt oracle segment.text max_tokens
          top_concepts 0).1
        (((queryLevel enc buildPrompt oracle segment.text max_tokens
          top_concepts 0).1).map (fun m => m.concept.uri)) [] with
    | none => none
    | some (res, tr) =>
      some (res, (top_concepts.map (fun c => c.uri),
        ((queryLevel enc buildPrompt oracle segment.text max_tokens
          top_concepts 0).1).map (fun m => m.concept.uri)) :: tr)

/-- The topological rank used to instantiate the acyclic-hierarchy theorem
on the scenario thesaurus: `b` one level below the roots. -/
def rankW : String → Nat := fun u => if u = "b" then 1 else 0

/-! ## Concrete instances used in scenario theorems and witnesses -/

/-- A trivial token encoder (every string costs 0 tokens). -/
def enc0 : String → Nat := fun _ => 0

/-- A token encoder counting one token per character. -/
def encLen : String → Nat := fun s => s.length

/-- A trivial prompt builder (the prompt text never matters beyond its
encoded length). -/
def bp0 : List String → String → String := fun _ _ => ""

/-- Scenario thesaurus of spec §8: concept A, top, with narrower `[B]`. -/
def concA : ThesaurusConcept :=
  { uri := "a", name := "A", is_top_concept := true, narrower := ["b"] }

/-- Scenario thesaurus of spec §8: concept B, no narrower concepts. -/
def concB : ThesaurusConcept := { uri := "b", name := "B" }

/-- Scenario thesaurus of spec §8: concept C, top, no narrower concepts. -/
def concC : ThesaurusConcept :=
  { uri := "c", name := "C", is_top_concept := true }

/-- Scenario oracle of spec §8: answers `["A"]` to the first (root) query and
`["B"]` to the second (A's narrower) query. -/
def oracleAB : Nat → List (String × Option Score) :=
  fun k => if k = 0 then [("A", none)] else if k = 1 then [("B", none)] else []

/-- A concept that is simultaneously a top concept and a narrower concept of
`reQueryTop`: used to exhibit a URI that enters two distinct oracle
queries. -/
def reQueryChild : ThesaurusConcept := { uri := "b", name := "B" }

/-- A top concept whose narrower list names `reQueryChild`, which is itself
also in the top-concept list. -/
def reQueryTop : ThesaurusConcept :=
  { uri := "a", name := "A", is_top_concept := true, narrower := ["b"] }

/-- Matched-concept values used by the deduplication example (`A`, `B`, `C`
with uris `a`, `b`, `c`; duplicate list entries share the uri). -/
def mcA : MatchedConcept := { concept := concA, source := "Exact occurrence", score := some 1 }

/-- Second matched concept for the deduplication example. -/
def mcB : MatchedConcept := { concept := concB, source := "Exact occurrence", score := some 1 }

/-- Third matched concept for the deduplication example. -/
def mcC : MatchedConcept := { concept := concC, source := "Exact occurrence", score := some 1 }

/-- The shape condition under which `_extract_selected_names` cannot hit its
`AttributeError`: every object item's `"concept"` value, when present, is a
JSON string. -/
def goodConceptValues (items : List Json) : Prop :=
  ∀ item ∈ items, ∀ kvs, item = Json.obj kvs →
    ∀ v, jsonObjGet kvs "concept" = some v → ∃ name, v = Json.str name

/-- A tiny concrete segment used to instantiate batching theorems. -/
def wseg : Segment := { text := "hi" }

/-! # Theorems -/

/-! ## Batching (claims C2 and C3) -/

theorem segBatchGo_flatten (enc : String → Nat) (dpt mt : Nat) :
    ∀ (l cur : List Segment) (tok : Nat),
      (segBatchGo enc dpt mt l cur tok).flatten = cur ++ l := by
  intro l
  induction l with
  | nil =>
    intro cur tok
    rw [segBatchGo]
    by_cases h : cur.isEmpty
    · simp [h, List.isEmpty_iff.mp h]
    · simp [h]
  | cons s rest ih =>
    intro cur tok
    rw [segBatchGo]
    split <;> simp [ih]

theorem labelBatchGo_flatten (enc : String → Nat) (available : Nat) :
    ∀ (l cur : List String) (tok : Nat),
      (labelBatchGo enc available l cur tok).flatten = cur ++ l := by
  intro l
  induction l with
  | nil =>
    intro cur tok
    rw [labelBatchGo]
    by_cases h : cur.isEmpty
    · simp [h, List.isEmpty_iff.mp h]
    · simp [h]
  | cons s rest ih =>
    intro cur tok
    rw [labelBatchGo]
    split <;> simp [ih]

/-- C2: concatenating, in order, the batches produced by
`_batch_segments_by_tokens` and by `_batch_concept_labels_by_tokens`
reproduces the input sequence exactly — no item lost, duplicated or
reordered — for every input, encoder, prompt overhead and budget. -/
theorem c2_batching_completeness (enc : String → Nat) (selectorPrompt : String)
    (buildPrompt : List String → String → String) (segments : List Segment)
    (labels : List String) (segment_text : String) (max_tokens : Nat) :
    (_batch_segments_by_tokens enc selectorPrompt segments max_tokens).flatten
        = segments ∧
    (_batch_concept_labels_by_tokens enc buildPrompt labels segment_text
        max_tokens).flatten = labels := by
  constructor
  · simpa using segBatchGo_flatten enc (enc selectorPrompt) max_tokens segments [] 0
  · simpa using labelBatchGo_flatten enc
      (max_tokens - enc (buildPrompt [] segment_text)) labels [] 0

theorem segBatchGo_budget (enc : String → Nat) (dpt mt : Nat) :
    ∀ (l cur : List Segment),
      (cur = [] ∨ dpt + (cur.map (segCost enc)).sum ≤ mt ∨
        ∃ x, cur = [x] ∧ mt < dpt + segCost enc x) →
      ∀ b ∈ segBatchGo enc dpt mt l cur ((cur.map (segCost enc)).sum),
        b ≠ [] ∧ (dpt + (b.map (segCost enc)).sum ≤ mt ∨
          ∃ x, b = [x] ∧ mt < dpt + segCost enc x) := by
  intro l
  induction l with
  | nil =>
    intro cur hinv b hb
    rw [segBatchGo] at hb
    by_cases h : cur.isEmpty
    · simp [h] at hb
    · simp [h] at hb
      subst hb
      rcases hinv with h0 | h0
      · simp [h0] at h
      · exact ⟨by simpa [List.isEmpty_iff] using h, h0⟩
  | cons s rest ih =>
    intro cur hinv b hb
    rw [segBatchGo] at hb
    by_cases h : mt < (cur.map (segCost enc)).sum + segCost enc s + dpt ∧ ¬ cur.isEmpty
    · rw [if_pos h] at hb
      rcases List.mem_cons.mp hb with hb | hb
      · subst hb
        rcases hinv with h0 | h0
        · rw [h0] at h; simp at h
        · exact ⟨by simpa [List.isEmpty_iff] using h.2, h0⟩
      · have hofl : [s].map (segCost enc) = [segCost enc s] := rfl
        have := ih [s] (Or.inr (by
          rcases le_or_lt (dpt + segCost enc s) mt with hle | hlt
          · exact Or.inl (by simpa using hle)
          · exact Or.inr ⟨s, rfl, hlt⟩)) b
        simp only [hofl, List.sum_cons, List.sum_nil, Nat.add_zero] at this
        exact this hb
    · rw [if_neg h] at hb
      have hsum : ((cur ++ [s]).map (segCost enc)).sum
          = (cur.map (segCost enc)).sum + segCost enc s := by
        simp
      have hinv' : (cur ++ [s]) = [] ∨
          dpt + ((cur ++ [s]).map (segCost enc)).sum ≤ mt ∨
          ∃ x, cur ++ [s] = [x] ∧ mt < dpt + segCost enc x := by
        rcases Classical.not_and_iff_or_not_not.mp h with h1 | h1
        · refine Or.inr (Or.inl ?_)
          rw [hsum]
          omega
        · have hcur : cur = [] := by
            simpa [List.isEmpty_iff] using h1
          subst hcur
          rcases le_or_lt (dpt + segCost enc s) mt with hle | hlt
          · exact Or.inr (Or.inl (by simpa using hle))
          · exact Or.inr (Or.inr ⟨s, rfl, hlt⟩)
      have := ih (cur ++ [s]) hinv' b
      rw [hsum] at this
      exact this hb

theorem labelBatchGo_budget (enc : String → Nat) (available : Nat) :
    ∀ (l cur : List String),
      (cur = [] ∨ ((cur.map (labelCost enc)).sum ≤ available ∨
        ∃ x, cur = [x] ∧ available < labelCost enc x)) →
      ∀ b ∈ labelBatchGo enc available l cur ((cur.map (labelCost enc)).sum),
        b ≠ [] ∧ ((b.map (labelCost enc)).sum ≤ available ∨
          ∃ x, b = [x] ∧ available < labelCost enc x) := by
  intro l
  induction l with
  | nil =>
    intro cur hinv b hb
    rw [labelBatchGo] at hb
    by_cases h : cur.isEmpty
    · simp [h] at hb
    · simp [h] at hb
      subst hb
      rcases hinv with h0 | h0
      · simp [h0] at h
      · exact ⟨by simpa [List.isEmpty_iff] using h, h0⟩
  | cons s rest ih =>
    intro cur hinv b hb
    rw [labelBatchGo] at hb
    by_cases h : available < (cur.map (labelCost enc)).sum + labelCost enc s ∧ ¬ cur.isEmpty
    · rw [if_pos h] at hb
      rcases List.mem_cons.mp hb with hb | hb
      · subst hb
        rcases hinv with h0 | h0
        · rw [h0] at h; simp at h
        · exact ⟨by simpa [List.isEmpty_iff] using h.2, h0⟩
      · have hofl : [s].map (labelCost enc) = [labelCost enc s] := rfl
        have := ih [s] (Or.inr (by
          rcases le_or_lt (labelCost enc s) available with hle | hlt
          · exact Or.inl (by simpa using hle)
          · exact Or.inr ⟨s, rfl, hlt⟩)) b
        simp only [hofl, List.sum_cons, List.sum_nil, Nat.add_zero] at this
        exact this hb
    · rw [if_neg h] at hb
      have hsum : ((cur ++ [s]).map (labelCost enc)).sum
          = (cur.map (labelCost enc)).sum + labelCost enc s := by
        simp
      have hinv' : (cur ++ [s]) = [] ∨
          (((cur ++ [s]).map (labelCost enc)).sum ≤ available ∨
          ∃ x, cur ++ [s] = [x] ∧ available < labelCost enc x) := by
        rcases Classical.not_and_iff_or_not_not.mp h with h1 | h1
        · refine Or.inr (Or.inl ?_)
          rw [hsum]
          omega
        · have hcur : cur = [] := by
            simpa [List.isEmpty_iff] using h1
          subst hcur
          rcases le_or_lt (labelCost enc s) available with hle | hlt
          · exact Or.inr (Or.inl (by simpa using hle))
          · exact Or.inr (Or.inr ⟨s, rfl, hlt⟩)
      have := ih (cur ++ [s]) hinv' b
      rw [hsum] at this
      exact this hb

/-- C3: every batch produced by the token-budget batchers is non-empty; its
overhead-plus-cost total stays within the budget except for a singleton batch
holding one item whose own cost exceeds budget minus overhead; and such an
oversized item always sits alone in its own batch. -/
theorem c3_batching_budget (enc : String → Nat) (selectorPrompt : String)
    (buildPrompt : List String → String → String) (segments : List Segment)
    (labels : List String) (segment_text : String) (max_tokens : Nat) :
    (∀ b ∈ _batch_segments_by_tokens enc selectorPrompt segments max_tokens,
      b ≠ [] ∧
      (enc selectorPrompt + (b.map (segCost enc)).sum ≤ max_tokens ∨
        ∃ x, b = [x] ∧ max_tokens - enc selectorPrompt < segCost enc x) ∧
      (∀ x ∈ b, max_tokens - enc selectorPrompt < segCost enc x → b = [x])) ∧
    (∀ b ∈ _batch_concept_labels_by_tokens enc buildPrompt labels segment_text
        max_tokens,
      b ≠ [] ∧
      (enc (buildPrompt [] segment_text) + (b.map (labelCost enc)).sum ≤ max_tokens ∨
        ∃ x, b = [x] ∧
          max_tokens - enc (buildPrompt [] segment_text) < labelCost enc x) ∧
      (∀ x ∈ b, max_tokens - enc (buildPrompt [] segment_text) < labelCost enc x →
        b = [x])) := by
  constructor
  · intro b hb
    have h := segBatchGo_budget enc (enc selectorPrompt) max_tokens segments []
      (Or.inl rfl) b (by simpa [_batch_segments_by_tokens] using hb)
    have hform : enc selectorPrompt + (b.map (segCost enc)).sum ≤ max_tokens ∨
        ∃ x, b = [x] ∧ max_tokens - enc selectorPrompt < segCost enc x := by
      rcases h.2 with h2 | ⟨x, hx, hlt⟩
      · exact Or.inl (by omega)
      · refine Or.inr ⟨x, hx, ?_⟩
        have : 10 ≤ segCost enc x := by simp [segCost]
        omega
    refine ⟨h.1, hform, ?_⟩
    intro x hx hbig
    rcases hform with hle | ⟨y, hy, _⟩
    · exfalso
      have hxle : segCost enc x ≤ (b.map (segCost enc)).sum :=
        List.single_le_sum (fun _ _ => Nat.zero_le _) _
          (List.mem_map_of_mem (segCost enc) hx)
      omega
    · subst hy
      simp [List.mem_singleton.mp hx]
  · intro b hb
    have h := labelBatchGo_budget enc
      (max_tokens - enc (buildPrompt [] segment_text)) labels []
      (Or.inl rfl) b (by simpa [_batch_concept_labels_by_tokens] using hb)
    have hpos : ∀ y ∈ b, 5 ≤ labelCost enc y := by
      intro y _
      simp [labelCost]
    have hform : enc (buildPrompt [] segment_text) + (b.map (labelCost enc)).sum
          ≤ max_tokens ∨
        ∃ x, b = [x] ∧
          max_tokens - enc (buildPrompt [] segment_text) < labelCost enc x := by
      rcases h.2 with h2 | h2
      · by_cases hd : enc (buildPrompt [] segment_text) ≤ max_tokens
        · exact Or.inl (by omega)
        · exfalso
          rcases List.exists_mem_of_ne_nil b h.1 with ⟨y, hy⟩
          have hyle : labelCost enc y ≤ (b.map (labelCost enc)).sum :=
            List.single_le_sum (fun _ _ => Nat.zero_le _) _
              (List.mem_map_of_mem (labelCost enc) hy)
          have := hpos y hy
          omega
      · exact Or.inr h2
    refine ⟨h.1, hform, ?_⟩
    intro x hx hbig
    rcases hform with hle | ⟨y, hy, _⟩
    · exfalso
      have hxle : labelCost enc x ≤ (b.map (labelCost enc)).sum :=
        List.single_le_sum (fun _ _ => Nat.zero_le _) _
          (List.mem_map_of_mem (labelCost enc) hx)
      omega
    · subst hy
      simp [List.mem_singleton.mp hx]

/-- Witness for C3 at a concrete input: the single batch produced for one
segment under budget 100 with the zero-cost encoder. -/
theorem c3_batching_budget_witness :
    [wseg] ≠ [] ∧
    (enc0 "" + ([wseg].map (segCost enc0)).sum ≤ 100 ∨
      ∃ x, [wseg] = [x] ∧ 100 - enc0 "" < segCost enc0 x) ∧
    (∀ x ∈ [wseg], 100 - enc0 "" < segCost enc0 x → [wseg] = [x]) :=
  (c3_batching_budget enc0 "" bp0 [wseg] [] "" 100).1 [wseg] (by decide)

/-! ## Exact occurrence (claim C10) -/

theorem exact_occurrence_eq_filter_map (segment : Segment)
    (concepts : List ThesaurusConcept) :
    match_segment_to_thesaurus_based_on_exact_occurrence segment concepts =
      (concepts.filter
          (fun c => wordOccurs c.name (pyLower segment.text))).map
        (fun c => { concept := c, source := "Exact occurrence", score := some 1 }) := by
  unfold match_segment_to_thesaurus_based_on_exact_occurrence
  induction concepts with
  | nil => rfl
  | cons c rest ih =>
    by_cases h : wordOccurs c.name (pyLower segment.text)
    · simp only [List.filterMap_cons, List.filter_cons, h, if_pos, List.map_cons]
      rw [ih]
    · simp only [List.filterMap_cons, List.filter_cons, h, if_neg, List.map_cons]
      simpa using ih

/-- C10: the exact-occurrence matcher yields at most one candidate per entry
of the concept list (however often the name occurs in the text), the
candidates appear in concept-list order (output is a sublist of the
per-concept candidate list), and every candidate carries source
`'Exact occurrence'` and score `1.0`. -/
theorem c10_exact_occurrence_shape (segment : Segment)
    (concepts : List ThesaurusConcept) :
    (match_segment_to_thesaurus_based_on_exact_occurrence segment concepts).Sublist
      (concepts.map
        (fun c => { concept := c, source := "Exact occurrence", score := some 1 })) ∧
    (∀ c : ThesaurusConcept,
      (match_segment_to_thesaurus_based_on_exact_occurrence segment
          concepts).countP (fun m => decide (m.concept = c)) ≤
        concepts.countP (fun x => decide (x = c))) ∧
    (match_segment_to_thesaurus_based_on_exact_occurrence segment concepts).all
      (fun m => decide (m.source = "Exact occurrence") &&
        decide (m.score = some (1 : Score))) = true := by
  rw [exact_occurrence_eq_filter_map]
  refine ⟨?_, ?_, ?_⟩
  · exact List.Sublist.map _ (List.filter_sublist concepts)
  · intro c
    have hsub : ((concepts.filter
          (fun c => wordOccurs c.name (pyLower segment.text))).map
        (fun c => (⟨c, "Exact occurrence", some 1⟩ : MatchedConcept))).Sublist
        (concepts.map
          (fun c => (⟨c, "Exact occurrence", some 1⟩ : MatchedConcept))) :=
      List.Sublist.map _ (List.filter_sublist concepts)
    refine le_trans (hsub.countP_le _) ?_
    rw [List.countP_map]
    apply le_of_eq
    apply List.countP_congr
    intro x _
    simp
  · rw [List.all_eq_true]
    intro m hm
    rcases List.mem_map.mp hm with ⟨x, hx, rfl⟩
    simp

/-! ## Hierarchical top-down matcher (claims C1, C4, C5) -/

/-- C1: in the spec §8 scenario — thesaurus `{A (top, narrower=[B]), B, C
(top)}`, oracle answering `["A"]` to the root query and `["B"]` to A's
narrower query — the hierarchical matcher returns exactly `[B]`: the
root-level match `A` seeds the frontier and the seen set but is not itself
appended to the accumulated result list. -/
theorem c1_root_matches_not_accumulated :
    (match_segment_topdown enc0 bp0 oracleAB { text := "t" }
        [concA, concB, concC] [concA, concC] 800000 4).map Prod.fst =
      some [{ concept := concB, source := "Top-down matching", score := none }] := by
  decide

theorem resolveSelected_concept_mem (sel : List (String × Option Score))
    (cs : List ThesaurusConcept) :
    ∀ m ∈ resolveSelected sel cs, m.concept ∈ cs := by
  intro m hm
  unfold resolveSelected at hm
  by_cases hsel : sel.isEmpty
  · rw [if_pos hsel] at hm
    cases hm
  · rw [if_neg hsel] at hm
    rcases List.mem_filterMap.mp hm with ⟨c, hc, hmap⟩
    rcases Option.map_eq_some'.mp hmap with ⟨sc, _, rfl⟩
    exact hc

theorem queryBatches_concept_mem (oracle : Nat → List (String × Option Score))
    (cands : List ThesaurusConcept) :
    ∀ (bs : List (List String)) (k : Nat),
      ∀ m ∈ (queryBatches oracle cands bs k).1, m.concept ∈ cands := by
  intro bs
  induction bs with
  | nil => intro k m hm; cases hm
  | cons b rest ih =>
    intro k m hm
    rw [queryBatches] at hm
    rcases List.mem_append.mp hm with h | h
    · exact resolveSelected_concept_mem _ _ m h
    · exact ih (k + 1) m h

theorem queryLevel_concept_mem (enc : String → Nat)
    (buildPrompt : List String → String → String)
    (oracle : Nat → List (String × Option Score)) (text : String)
    (max_tokens : Nat) (cands : List ThesaurusConcept) (k : Nat) :
    ∀ m ∈ (queryLevel enc buildPrompt oracle text max_tokens cands k).1,
      m.concept ∈ cands := by
  intro m hm
  exact queryBatches_concept_mem oracle cands _ k m hm

theorem length_filter_mono (p q : α → Bool)
    (himp : ∀ a, q a = true → p a = true) :
    ∀ l : List α, (l.filter q).length ≤ (l.filter p).length := by
  intro l
  induction l with
  | nil => simp
  | cons a t ih =>
    by_cases hq : q a
    · rw [List.filter_cons_of_pos hq, List.filter_cons_of_pos (himp a hq)]
      simpa using ih
    · rw [List.filter_cons_of_neg (by simpa using hq)]
      by_cases hp : p a
      · rw [List.filter_cons_of_pos hp]
        exact le_trans ih (Nat.le_succ _)
      · rw [List.filter_cons_of_neg (by simpa using hp)]
        exact ih

theorem length_filter_lt (p q : α → Bool)
    (himp : ∀ a, q a = true → p a = true) :
    ∀ (l : List α) (x : α), x ∈ l → p x = true → q x = false →
      (l.filter q).length < (l.filter p).length := by
  intro l
  induction l with
  | nil => intro x hx; cases hx
  | cons a t ih =>
    intro x hx hpx hqx
    rcases List.mem_cons.mp hx with rfl | hx'
    · rw [List.filter_cons_of_pos hpx, List.filter_cons_of_neg (by simp [hqx])]
      exact Nat.lt_succ_of_le (length_filter_mono p q himp t)
    · by_cases hq : q a
      · rw [List.filter_cons_of_pos hq, List.filter_cons_of_pos (himp a hq)]
        simpa using ih x hx' hpx hqx
      · rw [List.filter_cons_of_neg (by simpa using hq)]
        by_cases hp : p a
        · rw [List.filter_cons_of_pos hp]
          exact Nat.lt_succ_of_lt (ih x hx' hpx hqx)
        · rw [List.filter_cons_of_neg (by simpa using hp)]
          exact ih x hx' hpx hqx

theorem newNarrowerOf_mem (concepts : List ThesaurusConcept)
    (current : List MatchedConcept) (seen : List String) :
    ∀ c ∈ newNarrowerOf concepts current seen,
      c ∈ concepts ∧ c.uri ∉ seen ∧
        ∃ m ∈ current, c.uri ∈ m.concept.narrower := by
  intro c hc
  unfold newNarrowerOf at hc
  rcases List.mem_filter.mp hc with ⟨hc1, hns⟩
  unfold _find_narrower_concepts at hc1
  rcases List.mem_filter.mp hc1 with ⟨hcc, hcontains⟩
  have huri : c.uri ∈ ((current.map (fun m => m.concept)).map
      (fun c => c.narrower)).flatten := by
    simpa using hcontains
  rcases List.mem_flatten.mp huri with ⟨l, hl, hul⟩
  rcases List.mem_map.mp hl with ⟨p, hp, rfl⟩
  rcases List.mem_map.mp hp with ⟨m, hm, rfl⟩
  refine ⟨hcc, by simpa using hns, m, hm, hul⟩

theorem topdownLoop_isSome (enc : String → Nat)
    (buildPrompt : List String → String → String)
    (oracle : Nat → List (String × Option Score))
    (concepts : List ThesaurusConcept) (text : String) (max_tokens : Nat) :
    ∀ (fuel k : Nat) (current : List MatchedConcept) (seen : List String)
      (acc : List MatchedConcept),
      (concepts.filter (fun c => decide (c.uri ∉ seen))).length < fuel →
      (topdownLoop enc buildPrompt oracle concepts text max_tokens fuel k
        current seen acc).isSome := by
  intro fuel
  induction fuel with
  | zero => intro k current seen acc h; exact absurd h (Nat.not_lt_zero _)
  | succ fuel ih =>
    intro k current seen acc hm
    rw [topdownLoop]
    by_cases h1 : current.isEmpty
    · rw [if_pos h1]; rfl
    · rw [if_neg h1]
      by_cases h2 : (newNarrowerOf concepts current seen).isEmpty
      · rw [if_pos h2]; rfl
      · rw [if_neg h2]
        by_cases h3 : (queryLevel enc buildPrompt oracle text max_tokens
            (newNarrowerOf concepts current seen) k).1.isEmpty
        · rw [if_pos h3]; rfl
        · rw [if_neg h3]
          obtain ⟨m0, hm0⟩ : ∃ m, m ∈ (queryLevel enc buildPrompt oracle text
              max_tokens (newNarrowerOf concepts current seen) k).1 := by
            rcases hq : (queryLevel enc buildPrompt oracle text max_tokens
                (newNarrowerOf concepts current seen) k).1 with _ | ⟨m, t⟩
            · rw [hq] at h3; simp at h3
            · exact ⟨m, by simp [hq]⟩
          have hc0 := queryLevel_concept_mem enc buildPrompt oracle text
            max_tokens (newNarrowerOf concepts current seen) k m0 hm0
          rcases newNarrowerOf_mem concepts current seen m0.concept hc0 with
            ⟨hcin, hnotseen, _⟩
          have hseen' : m0.concept.uri ∈ seen ++
              ((queryLevel enc buildPrompt oracle text max_tokens
                (newNarrowerOf concepts current seen) k).1).map
                  (fun m => m.concept.uri) :=
            List.mem_append_right _ (List.mem_map_of_mem _ hm0)
          have hlt := length_filter_lt
            (fun c => decide (c.uri ∉ seen))
            (fun c => decide (c.uri ∉ seen ++
              ((queryLevel enc buildPrompt oracle text max_tokens
                (newNarrowerOf concepts current seen) k).1).map
                  (fun m => m.concept.uri)))
            (by
              intro a ha
              simp only [decide_eq_true_eq] at ha ⊢
              intro hin
              exact ha (List.mem_append_left _ hin))
            concepts m0.concept hcin
            (by simpa using hnotseen)
            (by
              simp only [decide_eq_false_iff_not, not_not]
              exact hseen')
          have := ih (queryLevel enc buildPrompt oracle text max_tokens
              (newNarrowerOf concepts current seen) k).2
            (queryLevel enc buildPrompt oracle text max_tokens
              (newNarrowerOf concepts current seen) k).1
            (seen ++ ((queryLevel enc buildPrompt oracle text max_tokens
              (newNarrowerOf concepts current seen) k).1).map
                (fun m => m.concept.uri))
            (acc ++ (queryLevel enc buildPrompt oracle text max_tokens
              (newNarrowerOf concepts current seen) k).1)
            (by omega)
          rcases hres : topdownLoop enc buildPrompt oracle concepts text
              max_tokens fuel
              (queryLevel enc buildPrompt oracle text max_tokens
                (newNarrowerOf concepts current seen) k).2
              (queryLevel enc buildPrompt oracle text max_tokens
                (newNarrowerOf concepts current seen) k).1
              (seen ++ ((queryLevel enc buildPrompt oracle text max_tokens
                (newNarrowerOf concepts current seen) k).1).map
                  (fun m => m.concept.uri))
              (acc ++ (queryLevel enc buildPrompt oracle text max_tokens
                (newNarrowerOf concepts current seen) k).1) with _ | ⟨res, tr⟩
          · rw [hres] at this; simp at this
          · rfl

/-- C5: for every hierarchy — cyclic ones included — every oracle-answer
sequence, every encoder/prompt/budget and every segment, the
narrower-expansion loop of `match_segment_topdown` terminates: fuel
`concepts.length + 1` is always sufficient, because each continued iteration
adds at least one pool URI to the `seen` set, whose complement in the finite
concept pool shrinks strictly. -/
theorem c5_topdown_cycle_safe_termination (enc : String → Nat)
    (buildPrompt : List String → String → String)
    (oracle : Nat → List (String × Option Score)) (segment : Segment)
    (concepts top_concepts : List ThesaurusConcept) (max_tokens : Nat) :
    (match_segment_topdown enc buildPrompt oracle segment concepts
      top_concepts max_tokens (concepts.length + 1)).isSome := by
  rw [match_segment_topdown]
  by_cases hroot : (queryLevel enc buildPrompt oracle segment.text max_tokens
      top_concepts 0).1.isEmpty
  · rw [if_pos hroot]; rfl
  · rw [if_neg hroot]
    have hloop := topdownLoop_isSome enc buildPrompt oracle concepts
      segment.text max_tokens (concepts.length + 1)
      (queryLevel enc buildPrompt oracle segment.text max_tokens
        top_concepts 0).2
      (queryLevel enc buildPrompt oracle segment.text max_tokens
        top_concepts 0).1
      (((queryLevel enc buildPrompt oracle segment.text max_tokens
        top_concepts 0).1).map (fun m => m.concept.uri)) []
      (Nat.lt_succ_of_le (List.length_filter_le _ _))
    rcases hres : topdownLoop enc buildPrompt oracle concepts segment.text
        max_tokens (concepts.length + 1)
        (queryLevel enc buildPrompt oracle segment.text max_tokens
          top_concepts 0).2
        (queryLevel enc buildPrompt oracle segment.text max_tokens
          top_concepts 0).1
        (((queryLevel enc buildPrompt oracle segment.text max_tokens
          top_concepts 0).1).map (fun m => m.concept.uri)) [] with _ | ⟨res, tr⟩
    · rw [hres] at hloop; simp at hloop
    · rw [hres]; rfl

theorem topdownLoop_trace (enc : String → Nat)
    (buildPrompt : List String → String → String)
    (oracle : Nat → List (String × Option Score))
    (concepts : List ThesaurusConcept) (text : String) (max_tokens : Nat) :
    ∀ (fuel k : Nat) (current : List MatchedConcept) (seen : List String)
      (acc res : List MatchedConcept) (tr : List TraceEntry),
      topdownLoop enc buildPrompt oracle concepts text max_tokens fuel k
        current seen acc = some (res, tr) →
      (∀ e ∈ tr, ∀ u ∈ e.1, u ∉ seen) ∧
      tr.Pairwise (fun e1 e2 => ∀ u ∈ e1.2, u ∉ e2.1) := by
  intro fuel
  induction fuel with
  | zero =>
    intro k current seen acc res tr heq
    rw [topdownLoop] at heq
    cases heq
  | succ fuel ih =>
    intro k current seen acc res tr heq
    rw [topdownLoop] at heq
    by_cases h1 : current.isEmpty
    · rw [if_pos h1] at heq
      obtain ⟨rfl, rfl⟩ : acc = res ∧ ([] : List TraceEntry) = tr := by
        simpa using heq
      exact ⟨by simp, by simp⟩
    · rw [if_neg h1] at heq
      by_cases h2 : (newNarrowerOf concepts current seen).isEmpty
      · rw [if_pos h2] at heq
        obtain ⟨rfl, rfl⟩ : acc = res ∧ ([] : List TraceEntry) = tr := by
          simpa using heq
        exact ⟨by simp, by simp⟩
      · rw [if_neg h2] at heq
        have hhead : ∀ u ∈ (newNarrowerOf concepts current seen).map
            (fun c => c.uri), u ∉ seen := by
          intro u hu
          rcases List.mem_map.mp hu with ⟨c, hc, rfl⟩
          exact (newNarrowerOf_mem concepts current seen c hc).2.1
        by_cases h3 : (queryLevel enc buildPrompt oracle text max_tokens
            (newNarrowerOf concepts current seen) k).1.isEmpty
        · rw [if_pos h3] at heq
          obtain ⟨rfl, rfl⟩ : acc = res ∧
              [((newNarrowerOf concepts current seen).map (fun c => c.uri),
                ((queryLevel enc buildPrompt oracle text max_tokens
                  (newNarrowerOf concepts current seen) k).1).map
                    (fun m => m.concept.uri))] = tr := by
            simpa using heq
          refine ⟨?_, by simp⟩
          intro e he u hu
          rcases List.mem_singleton.mp he with rfl
          exact hhead u hu
        · rw [if_neg h3] at heq
          rcases hres : topdownLoop enc buildPrompt oracle concepts text
              max_tokens fuel
              (queryLevel enc buildPrompt oracle text max_tokens
                (newNarrowerOf concepts current seen) k).2
              (queryLevel enc buildPrompt oracle text max_tokens
                (newNarrowerOf concepts current seen) k).1
              (seen ++ ((queryLevel enc buildPrompt oracle text max_tokens
                (newNarrowerOf concepts current seen) k).1).map
                  (fun m => m.concept.uri))
              (acc ++ (queryLevel enc buildPrompt oracle text max_tokens
                (newNarrowerOf concepts current seen) k).1) with _ | ⟨res0, tr0⟩
          · rw [hres] at heq
            cases heq
          · rw [hres] at heq
            obtain ⟨rfl, rfl⟩ : res0 = res ∧
                (((newNarrowerOf concepts current seen).map (fun c => c.uri),
                  ((queryLevel enc buildPrompt oracle text max_tokens
                    (newNarrowerOf concepts current seen) k).1).map
                      (fun m => m.concept.uri)) :: tr0) = tr := by
              simpa using heq
            rcases ih _ _ _ _ _ _ hres with ⟨hA, hB⟩
            constructor
            · intro e he u hu
              rcases List.mem_cons.mp he with rfl | he'
              · exact hhead u hu
              · intro hin
                exact hA e he' u hu (List.mem_append_left _ hin)
            · rw [List.pairwise_cons]
              refine ⟨?_, hB⟩
              intro e2 he2 u hu
              intro hin
              exact hA e2 he2 u hin
                (List.mem_append_right _ (by simpa using hu))

theorem topdownLoop_depth (enc : String → Nat)
    (buildPrompt : List String → String → String)
    (oracle : Nat → List (String × Option Score))
    (concepts : List ThesaurusConcept) (text : String) (max_tokens : Nat)
    (rank : String → Nat) (depth : Nat)
    (hR : ∀ c ∈ concepts, ∀ c' ∈ concepts, c'.uri ∈ c.narrower →
      rank c.uri < rank c'.uri)
    (hD : ∀ c ∈ concepts, rank c.uri ≤ depth) :
    ∀ (fuel r k : Nat) (current : List MatchedConcept) (seen : List String)
      (acc : List MatchedConcept),
      current ≠ [] →
      (∀ m ∈ current, m.concept ∈ concepts ∧ r ≤ rank m.concept.uri) →
      depth + 1 ≤ fuel + r →
      ∃ res tr, topdownLoop enc buildPrompt oracle concepts text max_tokens
          fuel k current seen acc = some (res, tr) ∧
        (tr.length + r ≤ depth ∨ tr = []) := by
  intro fuel
  induction fuel with
  | zero =>
    intro r k current seen acc hne hcur hfuel
    rcases List.exists_mem_of_ne_nil current hne with ⟨m, hm⟩
    rcases hcur m hm with ⟨hmc, hmr⟩
    have := hD m.concept hmc
    omega
  | succ fuel ih =>
    intro r k current seen acc hne hcur hfuel
    rw [topdownLoop]
    rw [if_neg (by simpa [List.isEmpty_iff] using hne)]
    by_cases h2 : (newNarrowerOf concepts current seen).isEmpty
    · rw [if_pos h2]
      exact ⟨acc, [], rfl, Or.inr rfl⟩
    · have hnew : ∀ c ∈ newNarrowerOf concepts current seen,
          c ∈ concepts ∧ r + 1 ≤ rank c.uri := by
        intro c hc
        rcases newNarrowerOf_mem concepts current seen c hc with
          ⟨hcc, _, m, hm, hcu⟩
        rcases hcur m hm with ⟨hmc, hmr⟩
        have := hR m.concept hmc c hcc hcu
        exact ⟨hcc, by omega⟩
      obtain ⟨c0, hc0⟩ : ∃ c, c ∈ newNarrowerOf concepts current seen := by
        rcases hq : newNarrowerOf concepts current seen with _ | ⟨c, t⟩
        · rw [hq] at h2; simp at h2
        · exact ⟨c, by simp [hq]⟩
      have hr1 : r + 1 ≤ depth := by
        rcases hnew c0 hc0 with ⟨hcc, hrr⟩
        have := hD c0 hcc
        omega
      rw [if_neg h2]
      by_cases h3 : (queryLevel enc buildPrompt oracle text max_tokens
          (newNarrowerOf concepts current seen) k).1.isEmpty
      · rw [if_pos h3]
        refine ⟨acc, _, rfl, Or.inl ?_⟩
        simp only [List.length_singleton]
        omega
      · rw [if_neg h3]
        have hne' : (queryLevel enc buildPrompt oracle text max_tokens
            (newNarrowerOf concepts current seen) k).1 ≠ [] := by
          simpa [List.isEmpty_iff] using h3
        have hcur' : ∀ m ∈ (queryLevel enc buildPrompt oracle text max_tokens
            (newNarrowerOf concepts current seen) k).1,
            m.concept ∈ concepts ∧ r + 1 ≤ rank m.concept.uri := by
          intro m hm
          exact hnew m.concept (queryLevel_concept_mem enc buildPrompt oracle
            text max_tokens (newNarrowerOf concepts current seen) k m hm)
        rcases ih (r + 1)
          (queryLevel enc buildPrompt oracle text max_tokens
            (newNarrowerOf concepts current seen) k).2
          (queryLevel enc buildPrompt oracle text max_tokens
            (newNarrowerOf concepts current seen) k).1
          (seen ++ ((queryLevel enc buildPrompt oracle text max_tokens
            (newNarrowerOf concepts current seen) k).1).map
              (fun m => m.concept.uri))
          (acc ++ (queryLevel enc buildPrompt oracle text max_tokens
            (newNarrowerOf concepts current seen) k).1)
          hne' hcur' (by omega) with ⟨res0, tr0, hres, hb⟩
        refine ⟨res0, ((newNarrowerOf concepts current seen).map
            (fun c => c.uri),
          ((queryLevel enc buildPrompt oracle text max_tokens
            (newNarrowerOf concepts current seen) k).1).map
              (fun m => m.concept.uri)) :: tr0, ?_, Or.inl ?_⟩
        · rw [hres]
        · rcases hb with hb | hb
          · simp only [List.length_cons]
            omega
          · subst hb
            simp only [List.length_cons, List.length_nil]
            omega

/-- C4 (amended): over an acyclic hierarchy — witnessed by a rank function
that strictly increases along `narrower` edges and is bounded by `depth` —
whose top concepts belong to the concept pool, and for every oracle-answer
sequence, the top-down traversal terminates within `depth` narrower levels
(the level trace, root included, has at most `depth + 1` entries), and a URI
matched at some level (and therefore placed in the `seen` set) is never put
into any later level's oracle query. A URI queried but not matched may be
queried again at a deeper level, so "each concept is queried at most once"
does not hold in general. -/
theorem c4_acyclic_depth_and_no_requery_once_seen (enc : String → Nat)
    (buildPrompt : List String → String → String)
    (oracle : Nat → List (String × Option Score)) (segment : Segment)
    (concepts top_concepts : List ThesaurusConcept) (max_tokens : Nat)
    (rank : String → Nat) (depth : Nat)
    (hT : ∀ c ∈ top_concepts, c ∈ concepts)
    (hR : ∀ c ∈ concepts, ∀ c' ∈ concepts, c'.uri ∈ c.narrower →
      rank c.uri < rank c'.uri)
    (hD : ∀ c ∈ concepts, rank c.uri ≤ depth) :
    ∃ res tr, match_segment_topdown enc buildPrompt oracle segment concepts
        top_concepts max_tokens (depth + 1) = some (res, tr) ∧
      tr.length ≤ depth + 1 ∧
      tr.Pairwise (fun e1 e2 => ∀ u ∈ e1.2, u ∉ e2.1) := by
  rw [match_segment_topdown]
  by_cases hroot : (queryLevel enc buildPrompt oracle segment.text max_tokens
      top_concepts 0).1.isEmpty
  · rw [if_pos hroot]
    exact ⟨[], [(top_concepts.map (fun c => c.uri),
      ((queryLevel enc buildPrompt oracle segment.text max_tokens
        top_concepts 0).1).map (fun m => m.concept.uri))], rfl, by simp, by simp⟩
  · rw [if_neg hroot]
    have hne : (queryLevel enc buildPrompt oracle segment.text max_tokens
        top_concepts 0).1 ≠ [] := by
      simpa [List.isEmpty_iff] using hroot
    have hcur : ∀ m ∈ (queryLevel enc buildPrompt oracle segment.text
        max_tokens top_concepts 0).1,
        m.concept ∈ concepts ∧ 0 ≤ rank m.concept.uri := by
      intro m hm
      exact ⟨hT m.concept (queryLevel_concept_mem enc buildPrompt oracle
        segment.text max_tokens top_concepts 0 m hm), Nat.zero_le _⟩
    rcases topdownLoop_depth enc buildPrompt oracle concepts segment.text
      max_tokens rank depth hR hD (depth + 1) 0
      (queryLevel enc buildPrompt oracle segment.text max_tokens
        top_concepts 0).2
      (queryLevel enc buildPrompt oracle segment.text max_tokens
        top_concepts 0).1
      (((queryLevel enc buildPrompt oracle segment.text max_tokens
        top_concepts 0).1).map (fun m => m.concept.uri)) []
      hne hcur (by omega) with ⟨res0, tr0, hres, hb⟩
    rcases topdownLoop_trace enc buildPrompt oracle concepts segment.text
      max_tokens (depth + 1)
      (queryLevel enc buildPrompt oracle segment.text max_tokens
        top_concepts 0).2
      (queryLevel enc buildPrompt oracle segment.text max_tokens
        top_concepts 0).1
      (((queryLevel enc buildPrompt oracle segment.text max_tokens
        top_concepts 0).1).map (fun m => m.concept.uri)) [] res0 tr0 hres with
      ⟨hA, hB⟩
    refine ⟨res0, (top_concepts.map (fun c => c.uri),
      ((queryLevel enc buildPrompt oracle segment.text max_tokens
        top_concepts 0).1).map (fun m => m.concept.uri)) :: tr0, ?_, ?_, ?_⟩
    · rw [hres]
    · rcases hb with hb | hb
      · simp only [List.length_cons]
        omega
      · subst hb
        simp
    · rw [List.pairwise_cons]
      refine ⟨?_, hB⟩
      intro e2 he2 u hu hin
      exact hA e2 he2 u hin hu

/-- Witness for C4 (amended) at the concrete scenario thesaurus (rank 0 for
the roots, rank 1 for `b`, depth 1). -/
theorem c4_acyclic_depth_witness :
    ∃ res tr, match_segment_topdown enc0 bp0 oracleAB { text := "t" }
        [concA, concB, concC] [concA, concC] 800000 (1 + 1) = some (res, tr) ∧
      tr.length ≤ 1 + 1 ∧
      tr.Pairwise (fun e1 e2 => ∀ u ∈ e1.2, u ∉ e2.1) :=
  c4_acyclic_depth_and_no_requery_once_seen enc0 bp0 oracleAB { text := "t" }
    [concA, concB, concC] [concA, concC] 800000 rankW 1
    (by decide) (by decide) (by decide)

/-- C4 (counterexample): with concept `B` both a top concept and a narrower
concept of top concept `A`, and an oracle matching only `A` at the root, the
URI `b` is put into the root-level oracle query and again into the level-1
narrower query — a concept URI is included in two distinct oracle queries,
because the `seen` set records only matched URIs, not queried ones. -/
theorem c4_counterexample_requeried_uri :
    match_segment_topdown enc0 bp0 oracleAB { text := "t" }
        [reQueryTop, reQueryChild] [reQueryTop, reQueryChild] 800000 3 =
      some ([(⟨reQueryChild, "Top-down matching", none⟩ : MatchedConcept)],
        [(["a", "b"], ["a"]), (["b"], ["b"])]) ∧
    "b" ∈ (["a", "b"] : List String) ∧ "b" ∈ (["b"] : List String) := by
  exact ⟨by decide, by decide, by decide⟩

/-! ## Embedding-similarity matcher (claim C9) -/

theorem map_getD_orderedInsert (sims : List ℚ) (a : Nat) :
    ∀ l : List Nat,
      (List.orderedInsert (fun i j => sims.getD i 0 ≤ sims.getD j 0) a l).map
          (fun i => sims.getD i 0) =
        List.orderedInsert (fun x y : ℚ => x ≤ y) (sims.getD a 0)
          (l.map (fun i => sims.getD i 0)) := by
  intro l
  induction l with
  | nil => rfl
  | cons b t ih =>
    by_cases h : sims.getD a 0 ≤ sims.getD b 0
    · rw [List.orderedInsert, if_pos h, List.map_cons, List.map_cons,
        List.orderedInsert, if_pos h]
    · rw [List.orderedInsert, if_neg h, List.map_cons, List.map_cons, ih,
        List.orderedInsert, if_neg h]

theorem map_getD_insertionSort (sims : List ℚ) :
    ∀ l : List Nat,
      (List.insertionSort (fun i j => sims.getD i 0 ≤ sims.getD j 0) l).map
          (fun i => sims.getD i 0) =
        List.insertionSort (fun x y : ℚ => x ≤ y)
          (l.map (fun i => sims.getD i 0)) := by
  intro l
  induction l with
  | nil => rfl
  | cons b t ih =>
    rw [List.insertionSort, List.map_cons, List.insertionSort,
      map_getD_orderedInsert, ih]

theorem range_map_getD (sims : List ℚ) :
    (List.range sims.length).map (fun i => sims.getD i 0) = sims := by
  apply List.ext_getElem
  · simp
  · intro i h1 h2
    simp [List.getD_eq_getElem?_getD, List.getElem?_eq_getElem h2]

theorem argsort_map_getD (sims : List ℚ) :
    (argsortAsc sims).map (fun i => sims.getD i 0) =
      List.insertionSort (fun x y : ℚ => x ≤ y) sims := by
  rw [argsortAsc, map_getD_insertionSort, range_map_getD]

theorem argsort_length (sims : List ℚ) :
    (argsortAsc sims).length = sims.length := by
  rw [argsortAsc, List.length_insertionSort, List.length_range]

theorem argsort_mem {sims : List ℚ} {i : Nat} (h : i ∈ argsortAsc sims) :
    i < sims.length := by
  rw [argsortAsc] at h
  have := (List.perm_insertionSort
    (fun i j => sims.getD i 0 ≤ sims.getD j 0) (List.range sims.length)).mem_iff.mp h
  exact List.mem_range.mp this

/-- C9 (amended): for `k ≥ 1`, the embedding matcher returns
`min k n` candidates whose scores are exactly the `k` largest similarities
in descending order (the reversed tail of the ascending sort of the
similarity row), each candidate being the concept at a valid index with that
index's similarity as score and source `'Embedding similarities'`. Ties are
emitted in reverse original order (the ascending argsort is reversed), not
in original concept order. -/
theorem c9_embedding_top_k (sims : List ℚ) (concepts : List ThesaurusConcept)
    (top_k : Nat) (hk : 1 ≤ top_k) :
    ((match_segment_to_thesaurus_based_on_embeddings sims concepts top_k).length
        = min top_k sims.length) ∧
    ((match_segment_to_thesaurus_based_on_embeddings sims concepts top_k).map
        (fun m => m.score) =
      (((List.insertionSort (fun x y : ℚ => x ≤ y) sims).drop
          (sims.length - top_k)).reverse).map some) ∧
    (∀ m ∈ match_segment_to_thesaurus_based_on_embeddings sims concepts top_k,
      m.source = "Embedding similarities" ∧
      ∃ i, i < sims.length ∧ m.concept = concepts.getD i default ∧
        m.score = some (sims.getD i 0)) := by
  have hk0 : top_k ≠ 0 := by omega
  unfold match_segment_to_thesaurus_based_on_embeddings
  rw [if_neg hk0]
  refine ⟨?_, ?_, ?_⟩
  · rw [List.length_map, List.length_reverse, List.length_drop, argsort_length]
    omega
  · rw [List.map_map, argsort_length]
    have hcomp : ((fun m : MatchedConcept => m.score) ∘ (fun i =>
        (⟨concepts.getD i default, "Embedding similarities",
          some (sims.getD i 0)⟩ : MatchedConcept))) =
        (fun i => some (sims.getD i 0)) := rfl
    rw [hcomp]
    have : (fun i => some (sims.getD i 0)) =
        (some ∘ (fun i => sims.getD i 0)) := rfl
    rw [this, ← List.map_map, List.map_reverse, List.map_drop, argsort_map_getD]
  · intro m hm
    rcases List.mem_map.mp hm with ⟨i, hi, rfl⟩
    have hmem : i ∈ argsortAsc sims :=
      List.mem_of_mem_drop (List.mem_reverse.mp hi)
    exact ⟨rfl, i, argsort_mem hmem, rfl, rfl⟩

/-- Witness for C9 (amended) at a concrete input: similarities `[2, 1]` over
two concepts with `k = 1` select the single highest-similarity concept. -/
theorem c9_embedding_top_k_witness :
    ((match_segment_to_thesaurus_based_on_embeddings [2, 1] [concA, concC] 1).length
        = min 1 [2, 1].length) ∧
    ((match_segment_to_thesaurus_based_on_embeddings [2, 1] [concA, concC] 1).map
        (fun m => m.score) =
      (((List.insertionSort (fun x y : ℚ => x ≤ y) [2, 1]).drop
          ([2, 1].length - 1)).reverse).map some) :=
  ⟨(c9_embedding_top_k [2, 1] [concA, concC] 1 (by omega)).1,
    (c9_embedding_top_k [2, 1] [concA, concC] 1 (by omega)).2.1⟩

/-- C9 (counterexample): with two concepts of equal similarity and
`k = 2`, the matcher returns them in reverse original order (the ascending
argsort `[0, 1]` is reversed to `[1, 0]`), not in original concept order as
the stable-tie-break claim states. -/
theorem c9_counterexample_tie_order :
    match_segment_to_thesaurus_based_on_embeddings [1, 1] [concA, concC] 2 =
      [{ concept := concC, source := "Embedding similarities", score := some 1 },
       { concept := concA, source := "Embedding similarities", score := some 1 }] ∧
    match_segment_to_thesaurus_based_on_embeddings [1, 1] [concA, concC] 2 ≠
      [{ concept := concA, source := "Embedding similarities", score := some 1 },
       { concept := concC, source := "Embedding similarities", score := some 1 }] := by
  exact ⟨by decide, by decide⟩

/-! ## Retrying oracle client (claim C7) -/

theorem safeChatGo_skip (outcomes : Nat → ChatOutcome) :
    ∀ (i n idx : Nat) (acc : List ℚ),
      (∀ j, j < i → retryOk (outcomes (idx + j)) = true) → i ≤ n →
      safeChatGo outcomes n idx acc =
        safeChatGo outcomes (n - i) (idx + i)
          (((List.range i).map (fun j => waitOf outcomes (idx + j))).reverse ++ acc) := by
  intro i
  induction i with
  | zero => intro n idx acc _ _; simp
  | succ i ih =>
    intro n idx acc hgood hle
    have h0 := hgood 0 (Nat.succ_pos i)
    rw [Nat.add_zero] at h0
    rcases hn : outcomes idx with s | m | m
    · rw [hn] at h0; simp [retryOk] at h0
    · rcases hw : rateLimitWait m with g | w
      · rw [hn] at h0; simp [retryOk, hw] at h0
      · obtain ⟨n', rfl⟩ : ∃ n', n = n' + 1 := ⟨n - 1, by omega⟩
        have hstep : safeChatGo outcomes (n' + 1) idx acc =
            safeChatGo outcomes n' (idx + 1) (w :: acc) := by
          simp only [safeChatGo, hn, hw]
        have hgood' : ∀ j, j < i → retryOk (outcomes (idx + 1 + j)) = true := by
          intro j hj
          have := hgood (j + 1) (by omega)
          rwa [show idx + (j + 1) = idx + 1 + j from by omega] at this
        have hw0 : waitOf outcomes idx = w := by
          simp only [waitOf, hn, hw]
        have hr : (List.range (i + 1)).map (fun j => waitOf outcomes (idx + j)) =
            waitOf outcomes idx ::
              (List.range i).map (fun j => waitOf outcomes (idx + 1 + j)) := by
          rw [List.range_succ_eq_map, List.map_cons, List.map_map, Nat.add_zero]
          congr 1
          apply List.map_congr_left
          intro j _
          show waitOf outcomes (idx + (j + 1)) = waitOf outcomes (idx + 1 + j)
          rw [show idx + (j + 1) = idx + 1 + j from by omega]
        rw [hstep, ih n' (idx + 1) (w :: acc) hgood' (by omega), hr, hw0,
          List.reverse_cons, List.append_assoc, List.singleton_append,
          Nat.succ_sub_succ,
          show idx + (i + 1) = idx + 1 + i from by omega]
    · rw [hn] at h0; simp [retryOk] at h0

/-- C7 (amended): for every outcome sequence, if the first `i` underlying
calls are rate-limit errors whose advertised wait converts (`retryOk`), the
wrapper sleeps the parsed duration (or the 10-unit default when the regex
finds no hint) after each of them; it makes at most `max_retries` underlying
calls, failing with the too-many-attempts error after `max_retries`
rate-limited calls; a successful call returns its response; any other oracle
error propagates immediately; and a rate-limit error whose matched hint does
not convert to a float (e.g. `"."`) raises `ValueError` instead of waiting
or retrying. -/
theorem c7_retry_policy (outcomes : Nat → ChatOutcome) (max_retries i : Nat)
    (hgood : ∀ j, j < i → retryOk (outcomes j) = true)
    (hi : i ≤ max_retries) :
    (i = max_retries →
      _safe_chat_call outcomes max_retries =
        (.tooManyAttempts, (List.range max_retries).map (waitOf outcomes))) ∧
    (∀ s, i < max_retries → outcomes i = .ok s →
      _safe_chat_call outcomes max_retries =
        (.success s, (List.range i).map (waitOf outcomes))) ∧
    (∀ m, i < max_retries → outcomes i = .apiError m →
      _safe_chat_call outcomes max_retries =
        (.openAIError m, (List.range i).map (waitOf outcomes))) ∧
    (∀ m g, i < max_retries → outcomes i = .rateLimited m →
      rateLimitWait m = .error g →
      _safe_chat_call outcomes max_retries =
        (.valueError g, (List.range i).map (waitOf outcomes))) := by
  have hbase : _safe_chat_call outcomes max_retries =
      safeChatGo outcomes (max_retries - i) i
        (((List.range i).map (fun j => waitOf outcomes j)).reverse ++ []) := by
    have h := safeChatGo_skip outcomes i max_retries 0 [] (by
      intro j hj
      rw [Nat.zero_add]
      exact hgood j hj) hi
    rw [Nat.zero_add] at h
    simpa using h
  refine ⟨?_, ?_, ?_, ?_⟩
  · intro hieq
    subst hieq
    rw [hbase, Nat.sub_self, safeChatGo]
    simp
  · intro s hlt hok
    obtain ⟨k, hk⟩ : ∃ k, max_retries - i = k + 1 := ⟨max_retries - i - 1, by omega⟩
    rw [hbase, hk]
    simp only [safeChatGo, hok]
    simp
  · intro m hlt herr
    obtain ⟨k, hk⟩ : ∃ k, max_retries - i = k + 1 := ⟨max_retries - i - 1, by omega⟩
    rw [hbase, hk]
    simp only [safeChatGo, herr]
    simp
  · intro m g hlt hrl hbadg
    obtain ⟨k, hk⟩ : ∃ k, max_retries - i = k + 1 := ⟨max_retries - i - 1, by omega⟩
    rw [hbase, hk]
    simp only [safeChatGo, hrl, hbadg]
    simp

/-- Witness for C7 (amended) at a concrete input: one rate limit advertising
a 2-second wait, then success; the wrapper sleeps 2 units and returns the
response. -/
theorem c7_retry_policy_witness :
    _safe_chat_call chatOutW 5 = (.success "ok", [2]) := by
  have h := (c7_retry_policy chatOutW 5 1 (by decide) (by omega)).2.1 "ok"
    (by omega) (by decide)
  rw [h]
  decide

/-- C7 (counterexample): a rate-limit error message whose advertised wait
hint is the malformed `"."` (matched by the regex, rejected by `float`)
makes `_safe_chat_call` raise `ValueError` at once — it neither sleeps, nor
retries, nor reaches the too-many-attempts error, contradicting the claim
that every rate-limit error leads to a parsed-or-default wait and a
retry. -/
theorem c7_counterexample_malformed_wait_hint :
    _safe_chat_call (fun _ => .rateLimited "Please try again in .s") 5 =
      (.valueError ".", []) ∧
    (ChatResult.valueError "." ≠ ChatResult.tooManyAttempts) := by
  exact ⟨by decide, by decide⟩

/-! ## Response interpretation (claim C6) -/

theorem extract_ok_of_good :
    ∀ items : List Json, goodConceptValues items →
      ∃ sel, _extract_selected_names items = .ok sel := by
  intro items
  induction items with
  | nil => intro _; exact ⟨[], rfl⟩
  | cons item rest ih =>
    intro hgood
    have hrest : goodConceptValues rest := by
      intro it hit kvs hkvs v hv
      exact hgood it (List.mem_cons_of_mem _ hit) kvs hkvs v hv
    rcases ih hrest with ⟨tail, htail⟩
    cases item with
    | null => exact ⟨tail, htail⟩
    | bool b => exact ⟨tail, htail⟩
    | num q => exact ⟨tail, htail⟩
    | arr xs => exact ⟨tail, htail⟩
    | str sv =>
      refine ⟨(pyStrip sv, none) :: tail, ?_⟩
      show (match _extract_selected_names rest with
        | .ok tail => Except.ok ((pyStrip sv, none) :: tail)
        | .error e => Except.error e) = _
      rw [htail]
    | obj kvs =>
      rcases hcv : jsonObjGet kvs "concept" with _ | v
      · refine ⟨tail, ?_⟩
        show (match jsonObjGet kvs "concept" with
          | some (.str name) =>
            match _extract_selected_names rest with
            | .ok tail => Except.ok ((pyStrip name,
                match jsonObjGet kvs "score" with
                | none => none
                | some .null => none
                | some sj => pyFloat? sj) :: tail)
            | .error e => Except.error e
          | some _ => Except.error "AttributeError"
          | none => _extract_selected_names rest) = _
        rw [hcv, htail]
      · rcases hgood (Json.obj kvs) (List.mem_cons_self _ _) kvs rfl v hcv with
          ⟨name, rfl⟩
        refine ⟨(pyStrip name,
          match jsonObjGet kvs "score" with
          | none => none
          | some .null => none
          | some sj => pyFloat? sj) :: tail, ?_⟩
        show (match jsonObjGet kvs "concept" with
          | some (.str name) =>
            match _extract_selected_names rest with
            | .ok tail => Except.ok ((pyStrip name,
                match jsonObjGet kvs "score" with
                | none => none
                | some .null => none
                | some sj => pyFloat? sj) :: tail)
            | .error e => Except.error e
          | some _ => Except.error "AttributeError"
          | none => _extract_selected_names rest) = _
        rw [hcv, htail]

theorem clean_json_output_isSome (response : String)
    (h1 : pyStartsWith (pyStrip response) "<think>" = true →
      2 ≤ (pySplit (pyStrip response) "</think>").length) :
    ∃ s, _clean_json_output response = some s := by
  unfold _clean_json_output
  by_cases hj : pyStartsWith (pyStrip response) "```json"
  · rw [if_pos hj]; exact ⟨_, rfl⟩
  · rw [if_neg hj]
    by_cases hf : pyStartsWith (pyStrip response) "```"
    · rw [if_pos hf]; exact ⟨_, rfl⟩
    · rw [if_neg hf]
      by_cases ht : pyStartsWith (pyStrip response) "<think>"
      · rw [if_pos ht]
        have hlen := h1 ht
        obtain ⟨a, b, t, hsplit⟩ :
            ∃ a b t, pySplit (pyStrip response) "</think>" = a :: b :: t := by
          rcases hq : pySplit (pyStrip response) "</think>" with _ | ⟨a, _ | ⟨b, t⟩⟩
          · rw [hq] at hlen; simp at hlen
          · rw [hq] at hlen; simp at hlen
          · exact ⟨a, b, t, rfl⟩
        rw [hsplit]
        exact ⟨_, rfl⟩
      · rw [if_neg ht]; exact ⟨_, rfl⟩

/-- C6 (amended): interpreting an oracle response through
`_clean_json_output` and `_get_matched_concepts_from_response` never errors
and turns any parse failure (invalid JSON, or JSON that is not a list) into
the empty match list — provided the response does not open a `<think>`
preamble that it never closes (which raises `IndexError` in the cleaner) and
no decoded object item carries a non-string `"concept"` value (which raises
`AttributeError` in the extractor). -/
theorem c6_parse_failures_yield_empty (parse : String → Option Json)
    (response : String) (concepts : List ThesaurusConcept)
    (h1 : pyStartsWith (pyStrip response) "<think>" = true →
      2 ≤ (pySplit (pyStrip response) "</think>").length)
    (h2 : ∀ s items, _clean_json_output response = some s →
      parse s = some (Json.arr items) → goodConceptValues items) :
    (∃ r, _get_matched_concepts_from_response parse response concepts = .ok r) ∧
    (∀ s, _clean_json_output response = some s → parse s = none →
      _get_matched_concepts_from_response parse response concepts = .ok []) ∧
    (∀ s j, _clean_json_output response = some s → parse s = some j →
      (∀ items, j ≠ Json.arr items) →
      _get_matched_concepts_from_response parse response concepts = .ok []) := by
  have hred : ∀ s, _clean_json_output response = some s →
      _get_matched_concepts_from_response parse response concepts =
        (match parse s with
         | none => Except.ok []
         | some (Json.arr items) =>
           (match _extract_selected_names items with
            | Except.error e => Except.error e
            | Except.ok sel => Except.ok (resolveSelected sel concepts))
         | some _ => Except.ok []) := by
    intro s hs
    unfold _get_matched_concepts_from_response
    rw [hs]
  rcases clean_json_output_isSome response h1 with ⟨s, hs⟩
  refine ⟨?_, ?_, ?_⟩
  · rw [hred s hs]
    rcases hp : parse s with _ | j
    · exact ⟨[], rfl⟩
    · cases j with
      | arr items =>
        rcases extract_ok_of_good items (h2 s items hs hp) with ⟨sel, hsel⟩
        refine ⟨resolveSelected sel concepts, ?_⟩
        show (match _extract_selected_names items with
          | Except.error e => Except.error e
          | Except.ok sel => Except.ok (resolveSelected sel concepts)) = _
        rw [hsel]
      | null => exact ⟨[], rfl⟩
      | bool b => exact ⟨[], rfl⟩
      | num q => exact ⟨[], rfl⟩
      | str sv => exact ⟨[], rfl⟩
      | obj kvs => exact ⟨[], rfl⟩
  · intro s' hs' hp
    rw [hred s' hs', hp]
  · intro s' j hs' hp hnotarr
    rw [hred s' hs', hp]
    cases j with
    | arr items => exact absurd rfl (hnotarr items)
    | null => rfl
    | bool b => rfl
    | num q => rfl
    | str sv => rfl
    | obj kvs => rfl

/-- Witness for C6 (amended) at a concrete input: the response `"hello"`
with a parser that rejects everything yields `.ok []`, not an error. -/
theorem c6_parse_failures_yield_empty_witness :
    (∃ r, _get_matched_concepts_from_response (fun _ => none) "hello" [] = .ok r) ∧
    _get_matched_concepts_from_response (fun _ => none) "hello" [] = .ok [] := by
  have h := c6_parse_failures_yield_empty (fun _ => none) "hello" []
    (by decide) (fun s items _ h => Option.noConfusion h)
  exact ⟨h.1, h.2.1 "hello" (by decide) rfl⟩

/-- C6 (counterexample): a response that opens a `<think>` reasoning
preamble and never closes it makes the cleaner raise `IndexError`
(`response_text.split('</think>')[1]` on a single-element split), so
interpretation does raise rather than yield the empty match list. -/
theorem c6_counterexample_unclosed_think :
    _clean_json_output "<think>reasoning" = none ∧
    _get_matched_concepts_from_response (fun _ => none) "<think>reasoning" [] =
      .error "IndexError" :=
  ⟨by decide, rfl⟩

/-! ## Deduplication (claim C8) -/

theorem deduplicateGo_eq_keepFirst (l : List MatchedConcept) :
    ∀ seen, deduplicateGo seen l =
      keepFirstByUri (l.filter (fun x => decide (x.concept.uri ∉ seen))) := by
  induction l with
  | nil => intro seen; simp [deduplicateGo, keepFirstByUri]
  | cons m rest ih =>
    intro seen
    by_cases hm : m.concept.uri ∈ seen
    · rw [deduplicateGo, if_pos hm, List.filter_cons,
        if_neg (by simp [hm]), ih]
    · rw [deduplicateGo, if_neg hm, List.filter_cons, if_pos (by simp [hm]),
        keepFirstByUri, ih (m.concept.uri :: seen), List.filter_filter]
      have hfe : List.filter (fun x => decide (x.concept.uri ∉ m.concept.uri :: seen)) rest =
          List.filter (fun a =>
            decide ¬a.concept.uri = m.concept.uri && decide (a.concept.uri ∉ seen)) rest := by
        apply List.filter_congr
        intro x _
        by_cases h1 : x.concept.uri = m.concept.uri <;>
          by_cases h2 : x.concept.uri ∈ seen <;> simp [h1, h2]
      rw [hfe]

theorem deduplicateGo_idem (l : List MatchedConcept) :
    ∀ seen, deduplicateGo seen (deduplicateGo seen l) = deduplicateGo seen l := by
  induction l with
  | nil => intro seen; rfl
  | cons m rest ih =>
    intro seen
    by_cases hm : m.concept.uri ∈ seen
    · rw [deduplicateGo, if_pos hm, ih]
    · rw [deduplicateGo, if_neg hm, deduplicateGo, if_neg hm, ih]

/-- C8: `deduplicate_matches` keeps exactly the first occurrence of each
distinct concept uri in input order (it coincides with the specification
recursion `keepFirstByUri`), it is idempotent, and deduplicating
`[A, B, A, C, B]` by uri returns `[A, B, C]`. -/
theorem c8_deduplicate_first_occurrence_idempotent :
    (∀ ms : List MatchedConcept, deduplicate_matches ms = keepFirstByUri ms) ∧
    (∀ ms : List MatchedConcept,
      deduplicate_matches (deduplicate_matches ms) = deduplicate_matches ms) ∧
    deduplicate_matches [mcA, mcB, mcA, mcC, mcB] = [mcA, mcB, mcC] := by
  refine ⟨fun ms => ?_, fun ms => deduplicateGo_idem ms [], by decide⟩
  have h := deduplicateGo_eq_keepFirst ms []
  simpa [deduplicate_matches, List.filter_true] using h

end WO2
